import Mathlib

/-!
Verification of the meshguard-rs core against its specification.

The development shallowly embeds the two core crates:
  * `crates/quantize/src/lib.rs` (position/normal/UV quantization), and
  * `crates/pack/src/lib.rs` (Fisher–Yates permutation, inverse permutation,
    little-endian interleaved packing, index remapping).

Machine integers are modelled as `Nat`/`Int` with explicit `% 2^w` where
overflow matters.  The `f32`/`f64` arithmetic of the quantizer is idealised as
exact rational arithmetic, except that the IEEE infinities that the bounding
box fold genuinely produces (empty input) are modelled by the explicit
extended type `EF`.  The normal encoder needs a square root, so it is embedded
over the reals.
-/

namespace Meshguard

/-- Extended values: a rational (idealised finite float) or one of the two
IEEE infinities.  NaN never arises on the reachable paths of this code base;
the few IEEE-NaN cases of the arithmetic below are marked and given harmless
values. -/
inductive EF where
  | fin (q : ℚ)
  | pinf
  | ninf
deriving DecidableEq, Repr

namespace EF

/-- IEEE `<` on non-NaN floats. -/
def ltB : EF → EF → Bool
  | .fin a, .fin b => decide (a < b)
  | .fin _, .pinf => true
  | .fin _, .ninf => false
  | .pinf, _ => false
  | .ninf, .ninf => false
  | .ninf, _ => true

def sub : EF → EF → EF
  | .fin a, .fin b => .fin (a - b)
  | .pinf, .pinf => .pinf -- IEEE NaN; unreachable in this code base
  | .pinf, _ => .pinf
  | .ninf, .ninf => .ninf -- IEEE NaN; unreachable in this code base
  | .ninf, _ => .ninf
  | .fin _, .pinf => .ninf
  | .fin _, .ninf => .pinf

def absE : EF → EF
  | .fin a => .fin |a|
  | _ => .pinf

def addE : EF → EF → EF
  | .fin a, .fin b => .fin (a + b)
  | .pinf, .ninf => .pinf -- IEEE NaN; unreachable in this code base
  | .pinf, _ => .pinf
  | .ninf, .pinf => .ninf -- IEEE NaN; unreachable in this code base
  | .ninf, _ => .ninf
  | .fin _, .pinf => .pinf
  | .fin _, .ninf => .ninf

def mulE : EF → EF → EF
  | .fin a, .fin b => .fin (a * b)
  | .fin a, .pinf => if a < 0 then .ninf else if a = 0 then .fin 0 else .pinf
  | .fin a, .ninf => if a < 0 then .pinf else if a = 0 then .fin 0 else .ninf
  | .pinf, .fin b => if b < 0 then .ninf else if b = 0 then .fin 0 else .pinf
  | .ninf, .fin b => if b < 0 then .pinf else if b = 0 then .fin 0 else .ninf
  | .pinf, .pinf => .pinf
  | .pinf, .ninf => .ninf
  | .ninf, .pinf => .ninf
  | .ninf, .ninf => .pinf

def divE : EF → EF → EF
  | .fin a, .fin b => .fin (a / b) -- b = 0 is unreachable: the range is guarded
  | .fin _, _ => .fin 0 -- finite / ±inf = 0
  | .pinf, .fin b => if b < 0 then .ninf else .pinf
  | .ninf, .fin b => if b < 0 then .pinf else .ninf
  | _, _ => .fin 0 -- inf/inf is IEEE NaN; unreachable in this code base

/-- `f64::clamp` (same branch structure as the source). -/
def clampE (x lo hi : EF) : EF := if x.ltB lo then lo else if hi.ltB x then hi else x

/-- `f64::round` followed by `as i64` (saturating cast).  On the values this
code reaches the argument is a finite rational in `[0, 65535]`, where Rust's
round-half-away-from-zero agrees with Mathlib's `round`. -/
def roundI64 : EF → ℤ
  | .fin a => round a
  | .pinf => 2 ^ 63 - 1
  | .ninf => -(2 ^ 63)

end EF

/-- `as i32` on an `i64`: two's-complement wrap-around. -/
def wrap32 (v : ℤ) : ℤ := (v + 2 ^ 31) % 2 ^ 32 - 2 ^ 31

/-- The crate's generic `clamp<T: PartialOrd>` helper (quantize/src/lib.rs). -/
def clamp {α : Type} [LinearOrder α] (x lo hi : α) : α :=
  if x < lo then lo else if hi < x then hi else x

/-- `f32 as u32` saturating cast on an already-rounded value. -/
def castU32 (z : ℤ) : ℕ := (max 0 (min z (2 ^ 32 - 1))).toNat

/- ----------------------------------------------------------------
   Quantizer data model (quantize/src/lib.rs)
   ---------------------------------------------------------------- -/

structure QuantizedPositions where
  data : List ℤ
  scale : EF × EF × EF
  offset : EF × EF × EF
deriving DecidableEq, Repr

structure QuantizedNormalsOct where
  data : List ℕ
deriving DecidableEq, Repr

structure QuantizedUVs where
  data : List ℕ
deriving DecidableEq, Repr

/- ----------------------------------------------------------------
   aabb_min_max and quantize_positions
   ---------------------------------------------------------------- -/

/-- One `p[a] < min[a]` update of the AABB fold. -/
def updMin (m : EF) (x : ℚ) : EF := if EF.ltB (.fin x) m then .fin x else m

/-- One `p[a] > max[a]` update of the AABB fold. -/
def updMax (m : EF) (x : ℚ) : EF := if EF.ltB m (.fin x) then .fin x else m

/-- The min/max accumulation loop of `aabb_min_max`, starting from
`(+inf, -inf)` exactly as the source does. -/
def aabbFold (ps : List (ℚ × ℚ × ℚ)) : (EF × EF × EF) × (EF × EF × EF) :=
  ps.foldl
    (fun st p =>
      ((updMin st.1.1 p.1, updMin st.1.2.1 p.2.1, updMin st.1.2.2 p.2.2),
       (updMax st.2.1 p.1, updMax st.2.2.1 p.2.1, updMax st.2.2.2 p.2.2)))
    ((.pinf, .pinf, .pinf), (.ninf, .ninf, .ninf))

/-- The degenerate-extent widening of `aabb_min_max`:
`if (max-min).abs() < 1e-12 { max = min + 1e-6 }`. -/
def widen (mn mx : EF) : EF :=
  if EF.ltB (EF.absE (EF.sub mx mn)) (.fin (1 / 10 ^ 12)) then EF.addE mn (.fin (1 / 10 ^ 6))
  else mx

def aabb_min_max (ps : List (ℚ × ℚ × ℚ)) : (EF × EF × EF) × (EF × EF × EF) :=
  let mm := aabbFold ps
  (mm.1, (widen mm.1.1 mm.2.1, widen mm.1.2.1 mm.2.2.1, widen mm.1.2.2 mm.2.2.2))

/-- The second degeneracy guard of `quantize_positions`:
`if rng64.abs() < 1e-12 { 1e-6 } else { rng64 }`. -/
def rngGuard (r : EF) : EF :=
  if EF.ltB (EF.absE r) (.fin (1 / 10 ^ 12)) then .fin (1 / 10 ^ 6) else r

/-- The per-coordinate body of the `quantize_positions` loop. -/
def quantCoord (mn rng : EF) (x : ℚ) : ℤ :=
  let t := EF.mulE (EF.divE (EF.sub (.fin x) mn) rng) (.fin 65535)
  let tc := EF.clampE t (.fin 0) (.fin 65535)
  let qU := EF.roundI64 tc
  clamp (wrap32 (qU - 32768)) (-32768 : ℤ) 32767

def quantize_positions (ps : List (ℚ × ℚ × ℚ)) : QuantizedPositions :=
  let mm := aabb_min_max ps
  let mn := mm.1
  let rng : EF × EF × EF :=
    (rngGuard (EF.sub mm.2.1 mn.1), rngGuard (EF.sub mm.2.2.1 mn.2.1),
     rngGuard (EF.sub mm.2.2.2 mn.2.2))
  { data := ps.flatMap
      (fun p =>
        [quantCoord mn.1 rng.1 p.1, quantCoord mn.2.1 rng.2.1 p.2.1,
         quantCoord mn.2.2 rng.2.2 p.2.2]),
    scale := (EF.divE rng.1 (.fin 65535), EF.divE rng.2.1 (.fin 65535),
              EF.divE rng.2.2 (.fin 65535)),
    offset := mn }

/-- One reconstructed coordinate of `dequantize_positions`:
`(stored + 32768.0) * scale + offset`. -/
def deqCoord (scale offset : EF) (xq : ℤ) : EF :=
  EF.addE (EF.mulE (.fin ((xq : ℚ) + 32768)) scale) offset

/-- The `for i in 0..(len/3)` loop of `dequantize_positions`, consuming the
flat lane list three entries at a time (a trailing partial triple is ignored,
as in the source's integer division). -/
def deqChunks (scale offset : EF × EF × EF) : List ℤ → List (EF × EF × EF)
  | xq :: yq :: zq :: rest =>
      (deqCoord scale.1 offset.1 xq, deqCoord scale.2.1 offset.2.1 yq,
       deqCoord scale.2.2 offset.2.2 zq) :: deqChunks scale offset rest
  | _ => []

def dequantize_positions (q : QuantizedPositions) : List (EF × EF × EF) :=
  deqChunks q.scale q.offset q.data

/- ----------------------------------------------------------------
   quantize_uvs
   ---------------------------------------------------------------- -/

/-- One UV component: clamp to `[0,1]`, scale, round, `as u32`, `as u16`. -/
def uvComp (c : ℚ) : ℕ := castU32 (round (clamp c 0 1 * 65535)) % 65536

def quantize_uvs (uvs : List (ℚ × ℚ)) : QuantizedUVs :=
  ⟨uvs.flatMap (fun uv => [uvComp uv.1, uvComp uv.2])⟩

/- ----------------------------------------------------------------
   encode_normals_oct (embedded over ℝ because of the square root)
   ---------------------------------------------------------------- -/

/-- Rust `f32::signum` restricted to real (non-NaN, unsigned-zero) inputs:
`1.0` for positive and `+0.0`, `-1.0` for negative. -/
noncomputable def rustSignum (x : ℝ) : ℝ := if x < 0 then -1 else 1

/-- The normalization step: divide by the Euclidean length when it is
positive, else substitute the zero vector. -/
noncomputable def octNormalize (nrm : ℝ × ℝ × ℝ) : ℝ × ℝ × ℝ :=
  let len := Real.sqrt (nrm.1 * nrm.1 + nrm.2.1 * nrm.2.1 + nrm.2.2 * nrm.2.2)
  if len > 0 then (nrm.1 / len, nrm.2.1 / len, nrm.2.2 / len) else (0, 0, 0)

/-- The octahedral projection: L1-normalize the x/y components (0 when the L1
norm is 0). -/
noncomputable def octProject (v : ℝ × ℝ × ℝ) : ℝ × ℝ :=
  let denom := |v.1| + |v.2.1| + |v.2.2|
  (if denom > 0 then v.1 / denom else 0, if denom > 0 then v.2.1 / denom else 0)

/-- The lower-hemisphere fold, taken when `z < 0`:
`folded = (1 - |p|) * signum p` per component, with Rust's `signum`. -/
noncomputable def octFold (z : ℝ) (p : ℝ × ℝ) : ℝ × ℝ :=
  if z < 0 then ((1 - |p.1|) * rustSignum p.1, (1 - |p.2|) * rustSignum p.2) else p

/-- Map a folded component from [-1,1] to a `u16`: `(c*0.5+0.5)*65535`,
clamped, rounded, `as u32`, `as u16`. -/
noncomputable def octQuant (c : ℝ) : ℕ :=
  castU32 (round (clamp ((c * (1 / 2) + 1 / 2) * 65535) 0 65535)) % 65536

noncomputable def encodeNormalOct (nrm : ℝ × ℝ × ℝ) : ℕ × ℕ :=
  let n := octNormalize nrm
  let p := octFold n.2.2 (octProject n)
  (octQuant p.1, octQuant p.2)

noncomputable def encode_normals_oct (ns : List (ℝ × ℝ × ℝ)) : QuantizedNormalsOct :=
  ⟨ns.flatMap (fun n => [(encodeNormalOct n).1, (encodeNormalOct n).2])⟩

/- ----------------------------------------------------------------
   Permutation generator (pack/src/lib.rs)
   ---------------------------------------------------------------- -/

/-- The three xorshift updates of the `next_u64` closure (state part).
Only the left shift can overflow 64 bits, hence the single mask. -/
def xsStep (s : ℕ) : ℕ :=
  let s1 := s ^^^ (s >>> 12)
  let s2 := s1 ^^^ ((s1 <<< 25) % 2 ^ 64)
  s2 ^^^ (s2 >>> 27)

/-- The `wrapping_mul` output step of `next_u64`; it does not feed back into
the generator state. -/
def xsMul (s : ℕ) : ℕ := s * 0x2545F4914F6CDD1D % 2 ^ 64

/-- The in-bounds effect of `Vec::swap`. -/
def listSwap (p : List ℕ) (i j : ℕ) : List ℕ :=
  let a := p.getD i 0
  let b := p.getD j 0
  (p.set i b).set j a

/-- `Vec::swap`, which panics (modelled as `none`) when either index is out
of bounds. -/
def listSwapF (p : List ℕ) (i j : ℕ) : Option (List ℕ) :=
  if i < p.length ∧ j < p.length then some (listSwap p i j) else none

/-- The `for i in (1..n).rev()` Fisher–Yates loop, threading the generator
state; the first call processes index `i`, then `i-1`, ..., down to `1`. A
swap with an out-of-bounds index panics and the loop aborts. -/
def fyGo (p : List ℕ) (s : ℕ) : ℕ → Option (List ℕ)
  | 0 => some p
  | j + 1 =>
      let s2 := xsStep s
      let r := xsMul s2 % (j + 2)
      match listSwapF p (j + 1) r with
      | none => none
      | some p2 => fyGo p2 s2 j

/-- `permutation_fy`: the identity vector is `(0..n as u32).collect()`, so the
cast truncates `n` to 32 bits while the shuffle loop runs over the full
`usize` range — on 64-bit targets every `n ≥ 2^32` makes the first swap go out
of bounds and the function panic (`none`). -/
def permutation_fy (n : ℕ) (seed : ℕ) : Option (List ℕ) :=
  let s0 := if seed = 0 then 0x9E3779B97F4A7C15 else seed
  fyGo (List.range (n % 2 ^ 32)) s0 (n - 1)

/-- The `for (new, &old) in perm.iter().enumerate()` loop of
`inverse_permutation`. -/
def invGo (inv : List ℕ) (new : ℕ) : List ℕ → List ℕ
  | [] => inv
  | old :: rest => invGo (inv.set old new) (new + 1) rest

def inverse_permutation (perm : List ℕ) : List ℕ :=
  invGo (List.replicate perm.length 0) 0 perm

/- ----------------------------------------------------------------
   Packer (pack/src/lib.rs)
   ---------------------------------------------------------------- -/

structure PackedMesh where
  interleaved : List ℕ
  vertex_count : ℕ
  indices : List ℕ
  pos_scale : EF × EF × EF
  pos_offset : EF × EF × EF
  perm_seed : ℕ
deriving DecidableEq, Repr

/-- `i16::to_le_bytes`. -/
def i16le (v : ℤ) : List ℕ := [(v % 65536).toNat % 256, (v % 65536).toNat / 256]

/-- `u16::to_le_bytes`. -/
def u16le (v : ℕ) : List ℕ := [v % 65536 % 256, v % 65536 / 256]

/-- The 14 bytes appended for one source vertex `old`: positions, then
octahedral normal, then UV, all little-endian. -/
def vertexRecord (qpos : QuantizedPositions) (qnor : QuantizedNormalsOct)
    (quv : QuantizedUVs) (old : ℕ) : List ℕ :=
  i16le (qpos.data.getD (old * 3) 0) ++ i16le (qpos.data.getD (old * 3 + 1) 0) ++
    i16le (qpos.data.getD (old * 3 + 2) 0) ++
    u16le (qnor.data.getD (old * 2) 0) ++ u16le (qnor.data.getD (old * 2 + 1) 0) ++
    u16le (quv.data.getD (old * 2) 0) ++ u16le (quv.data.getD (old * 2 + 1) 0)

/-- The index-remapping loop; `inv[i as usize]` panics when `i` is out of
bounds, modelled by `none`. -/
def remapIndices (inv : List ℕ) : List ℕ → Option (List ℕ)
  | [] => some []
  | i :: rest =>
      match inv.get? i with
      | none => none
      | some v => (remapIndices inv rest).map (fun out => v :: out)

/-- `pack_interleave_permute`; `none` models a panic (failed `assert_eq!`
length precondition, or an out-of-bounds index-buffer entry). -/
def pack_interleave_permute (qpos : QuantizedPositions) (qnor : QuantizedNormalsOct)
    (quv : QuantizedUVs) (indices : Option (List ℕ)) (perm_seed : ℕ) :
    Option PackedMesh :=
  let vertex_count := qpos.data.length / 3
  if qnor.data.length = vertex_count * 2 then
    if quv.data.length = vertex_count * 2 then
      match permutation_fy vertex_count perm_seed with
      | none => none
      | some perm =>
          let inv := inverse_permutation perm
          let interleaved :=
            (List.range vertex_count).flatMap
              (fun new => vertexRecord qpos qnor quv (perm.getD new 0))
          match indices with
          | some idx =>
              (remapIndices inv idx).map
                (fun out =>
                  { interleaved := interleaved, vertex_count := vertex_count,
                    indices := out, pos_scale := qpos.scale, pos_offset := qpos.offset,
                    perm_seed := perm_seed })
          | none =>
              some
                { interleaved := interleaved, vertex_count := vertex_count,
                  indices := List.range vertex_count, pos_scale := qpos.scale,
                  pos_offset := qpos.offset, perm_seed := perm_seed }
    else none
  else none

/- ----------------------------------------------------------------
   Spec-side definitions, used only to compare against the embedded
   source functions (refinement claims).
   ---------------------------------------------------------------- -/

/-- The UV rule as the spec words it: clamp each component to [0,1], scale to
[0,65535], round. -/
def uvCompSpec (c : ℚ) : ℕ := (round (min 1 (max 0 c) * 65535)).toNat

/-- The Fisher–Yates loop as the claim words it, with the multiplier folded
into the generator state (`s *= constant` as a state update). -/
def fyGoClaim (p : List ℕ) (s : ℕ) : ℕ → List ℕ
  | 0 => p
  | j + 1 =>
      let s2 := xsMul (xsStep s)
      fyGoClaim (listSwap p (j + 1) (s2 % (j + 2))) s2 j

/-- `permutation_fy` as the claim describes it (state multiplied each draw). -/
def permutation_fy_claimStateMul (n : ℕ) (seed : ℕ) : List ℕ :=
  let s0 := if seed = 0 then 0x9E3779B97F4A7C15 else seed
  fyGoClaim (List.range n) s0 (n - 1)

/-- The `k`-th pseudo-random draw (0-based) for initial state `s0`: the state
is advanced `k+1` times by the xorshift steps and the draw is that state times
the multiplier, which does not feed back. -/
def specDraw (s0 k : ℕ) : ℕ := xsMul (xsStep^[k + 1] s0)

/-- The shuffle as the amended description words it: iterate `i` from `n-1`
down to `1` (the `k`-th step handles `i = n-1-k`), swapping position `i` with
`draw_k mod (i+1)`. -/
def specPermFY (n : ℕ) (seed : ℕ) : List ℕ :=
  let s0 := if seed = 0 then 0x9E3779B97F4A7C15 else seed
  (List.range (n - 1)).foldl
    (fun p k => listSwap p (n - 1 - k) (specDraw s0 k % (n - 1 - k + 1)))
    (List.range n)

/- ================================================================
   Theorems
   ================================================================ -/

section SwapPerm

/-- Replacing the `k`-th element by `x` while moving the old `k`-th element to
the front permutes a cons with `x` at the front. -/
lemma getD_cons_set_perm :
    ∀ (t : List ℕ) (k : ℕ) (x : ℕ), k < t.length →
      (t.getD k 0 :: t.set k x).Perm (x :: t) := by
  intro t
  induction t with
  | nil => intro k x hk; simp at hk
  | cons y t ih =>
      intro k x hk
      cases k with
      | zero => simpa using List.Perm.swap x y t
      | succ m =>
          simp only [List.getD_cons_succ, List.set_cons_succ]
          have hm : m < t.length := by simpa using Nat.lt_of_succ_lt_succ hk
          exact ((List.Perm.swap y (t.getD m 0) (t.set m x)).trans
            (List.Perm.cons y (ih m x hm))).trans (List.Perm.swap x y t)

/-- `Vec::swap` with in-bounds indices permutes the list. -/
lemma listSwap_perm :
    ∀ (p : List ℕ) (i j : ℕ), i < p.length → j < p.length → (listSwap p i j).Perm p := by
  intro p
  induction p with
  | nil => intro i j hi; simp at hi
  | cons h t ih =>
      intro i j hi hj
      cases i with
      | zero =>
          cases j with
          | zero => simp [listSwap]
          | succ k =>
              have hk : k < t.length := by simpa using Nat.lt_of_succ_lt_succ hj
              simpa [listSwap] using getD_cons_set_perm t k h hk
      | succ m =>
          have hm : m < t.length := by simpa using Nat.lt_of_succ_lt_succ hi
          cases j with
          | zero =>
              simpa [listSwap] using getD_cons_set_perm t m h hm
          | succ k =>
              have hk : k < t.length := by simpa using Nat.lt_of_succ_lt_succ hj
              have := ih m k hm hk
              simpa [listSwap] using List.Perm.cons h this

lemma listSwap_length (p : List ℕ) (i j : ℕ) : (listSwap p i j).length = p.length := by
  simp [listSwap]

end SwapPerm

section FoldHelpers

/-- Two folds with pointwise-equal step functions agree. -/
lemma foldl_ext {α β : Type} (f g : α → β → α) (h : ∀ a b, f a b = g a b) :
    ∀ (l : List β) (a : α), l.foldl f a = l.foldl g a := by
  intro l
  induction l with
  | nil => intro a; rfl
  | cons x xs ih => intro a; rw [List.foldl_cons, List.foldl_cons, h, ih]

/-- Peeling the first step off a fold over `range (n+1)`. -/
lemma foldl_range_succ_shift {α : Type} (f : α → ℕ → α) (a : α) (n : ℕ) :
    (List.range (n + 1)).foldl f a =
      (List.range n).foldl (fun x k => f x (k + 1)) (f a 0) := by
  rw [List.range_succ_eq_map, List.foldl_cons, List.foldl_map]

end FoldHelpers

section FYLoop

/-- Starting the loop at an in-bounds index, every swap stays in bounds and
the loop returns the indexed fold over draw numbers: step `k` of the fold
handles loop index `i - k` using the `k`-th draw. -/
lemma fyGo_eq_fold : ∀ (i : ℕ) (p : List ℕ) (s : ℕ), i < p.length →
    fyGo p s i = some ((List.range i).foldl
      (fun q k => listSwap q (i - k) (xsMul (xsStep^[k + 1] s) % (i - k + 1))) p) := by
  intro i
  induction i with
  | zero => intro p s _; simp [fyGo]
  | succ j ih =>
      intro p s hij
      have hr : xsMul (xsStep s) % (j + 2) < p.length :=
        lt_of_lt_of_le (Nat.mod_lt _ (by omega)) (by omega)
      have hswap : listSwapF p (j + 1) (xsMul (xsStep s) % (j + 2)) =
          some (listSwap p (j + 1) (xsMul (xsStep s) % (j + 2))) := by
        unfold listSwapF
        rw [if_pos ⟨hij, hr⟩]
      have hlen : j < (listSwap p (j + 1) (xsMul (xsStep s) % (j + 2))).length := by
        rw [listSwap_length]; omega
      rw [foldl_range_succ_shift]
      show (match listSwapF p (j + 1) (xsMul (xsStep s) % (j + 2)) with
        | none => none
        | some p2 => fyGo p2 (xsStep s) j) = _
      rw [hswap]
      show fyGo (listSwap p (j + 1) (xsMul (xsStep s) % (j + 2))) (xsStep s) j = _
      rw [ih _ (xsStep s) hlen]
      refine congrArg some (foldl_ext _ _ (fun q k => ?_) _ _)
      rw [show j + 1 - (k + 1) = j - k by omega]
      rfl

/-- Whatever the loop returns is a permutation of its starting list. -/
lemma fyGo_perm : ∀ (i : ℕ) (p : List ℕ) (s : ℕ) (q : List ℕ), i < p.length →
    fyGo p s i = some q → q.Perm p := by
  intro i
  induction i with
  | zero =>
      intro p s q _ h
      have hq : p = q := Option.some.inj h
      exact hq ▸ List.Perm.refl p
  | succ j ih =>
      intro p s q hij h
      have hr : xsMul (xsStep s) % (j + 2) < p.length :=
        lt_of_lt_of_le (Nat.mod_lt _ (by omega)) (by omega)
      have hswap : listSwapF p (j + 1) (xsMul (xsStep s) % (j + 2)) =
          some (listSwap p (j + 1) (xsMul (xsStep s) % (j + 2))) := by
        unfold listSwapF
        rw [if_pos ⟨hij, hr⟩]
      have hlen : j < (listSwap p (j + 1) (xsMul (xsStep s) % (j + 2))).length := by
        rw [listSwap_length]; omega
      have h' : (match listSwapF p (j + 1) (xsMul (xsStep s) % (j + 2)) with
        | none => none
        | some p2 => fyGo p2 (xsStep s) j) = some q := h
      rw [hswap] at h'
      exact (ih _ (xsStep s) q hlen h').trans
        (listSwap_perm p (j + 1) (xsMul (xsStep s) % (j + 2)) hij hr)

/-- For `n < 2^32` the truncation is the identity and the shuffle returns the
permutation described by `specPermFY`. -/
lemma permutation_fy_some (n seed : ℕ) (h32 : n < 2 ^ 32) :
    permutation_fy n seed = some (specPermFY n seed) := by
  unfold permutation_fy specPermFY specDraw
  rw [Nat.mod_eq_of_lt h32]
  cases n with
  | zero => rfl
  | succ m => exact fyGo_eq_fold m (List.range (m + 1)) _ (by simp)

/-- A first swap at an out-of-bounds index aborts the loop. -/
lemma fyGo_none_of_oob (p : List ℕ) (s j : ℕ) (h : p.length ≤ j + 1) :
    fyGo p s (j + 1) = none := by
  have hswap : listSwapF p (j + 1) (xsMul (xsStep s) % (j + 2)) = none := by
    unfold listSwapF
    rw [if_neg]
    rintro ⟨h1, _⟩
    omega
  show (match listSwapF p (j + 1) (xsMul (xsStep s) % (j + 2)) with
    | none => none
    | some p2 => fyGo p2 (xsStep s) j) = none
  rw [hswap]

/-- For `n ≥ 2^32` the identity vector is truncated below the loop bound and
the very first swap panics: the call aborts. -/
lemma permutation_fy_none (n seed : ℕ) (h : 2 ^ 32 ≤ n) :
    permutation_fy n seed = none := by
  show fyGo (List.range (n % 2 ^ 32)) (if seed = 0 then 0x9E3779B97F4A7C15 else seed)
    (n - 1) = none
  rw [show n - 1 = (n - 2) + 1 by omega]
  apply fyGo_none_of_oob
  rw [List.length_range]
  have hmod := Nat.mod_lt n (show 0 < 2 ^ 32 by norm_num)
  omega

lemma perm_of_some {n seed : ℕ} {perm : List ℕ} (h : permutation_fy n seed = some perm) :
    perm.Perm (List.range n) := by
  by_cases h32 : n < 2 ^ 32
  · simp only [permutation_fy] at h
    rw [Nat.mod_eq_of_lt h32] at h
    cases n with
    | zero =>
        have hq : List.range 0 = perm := Option.some.inj h
        exact hq ▸ List.Perm.refl _
    | succ m => exact fyGo_perm m (List.range (m + 1)) _ perm (by simp) h
  · rw [permutation_fy_none n seed (by omega)] at h
    cases h

lemma perm_some_length {n seed : ℕ} {perm : List ℕ}
    (h : permutation_fy n seed = some perm) : perm.length = n := by
  simpa using (perm_of_some h).length_eq

lemma perm_some_nodup {n seed : ℕ} {perm : List ℕ}
    (h : permutation_fy n seed = some perm) : perm.Nodup :=
  (List.nodup_range n).perm (perm_of_some h).symm

lemma perm_some_mem {n seed : ℕ} {perm : List ℕ}
    (h : permutation_fy n seed = some perm) {v : ℕ} : v ∈ perm ↔ v < n := by
  rw [(perm_of_some h).mem_iff, List.mem_range]

end FYLoop

section InversePerm

lemma invGo_length : ∀ (l : List ℕ) (inv : List ℕ) (new : ℕ),
    (invGo inv new l).length = inv.length := by
  intro l
  induction l with
  | nil => intro inv new; simp [invGo]
  | cons o rest ih => intro inv new; simp [invGo, ih]

/-- Positions never written by the remaining loop keep their value. -/
lemma invGo_getD_not_mem : ∀ (l : List ℕ) (inv : List ℕ) (new o d : ℕ), o ∉ l →
    (invGo inv new l).getD o d = inv.getD o d := by
  intro l
  induction l with
  | nil => intro inv new o d _; simp [invGo]
  | cons o0 rest ih =>
      intro inv new o d ho
      have h1 : o ≠ o0 := fun h => ho (by simp [h])
      have h2 : o ∉ rest := fun h => ho (by simp [h])
      rw [invGo, ih _ _ _ _ h2, List.getD_eq_getElem?_getD, List.getD_eq_getElem?_getD,
        List.getElem?_set_ne (fun h => h1 h.symm)]

/-- After the write loop, position `l[i]` holds `new + i`, provided the values
written to are distinct and in bounds. -/
lemma invGo_getD : ∀ (l : List ℕ) (inv : List ℕ) (new i : ℕ), l.Nodup →
    (∀ o ∈ l, o < inv.length) → i < l.length →
    (invGo inv new l).getD (l.getD i 0) 0 = new + i := by
  intro l
  induction l with
  | nil => intro inv new i _ _ hi; simp at hi
  | cons o0 rest ih =>
      intro inv new i hnd hbound hi
      have ho0 : o0 < inv.length := hbound o0 (by simp)
      cases i with
      | zero =>
          have hnotmem : o0 ∉ rest := (List.nodup_cons.mp hnd).1
          rw [List.getD_cons_zero, invGo, invGo_getD_not_mem rest _ _ _ _ hnotmem,
            List.getD_eq_getElem?_getD, List.getElem?_set_self ho0]
          simp
      | succ k =>
          have hk : k < rest.length := by simpa using Nat.lt_of_succ_lt_succ hi
          rw [List.getD_cons_succ, invGo,
            ih _ (new + 1) k (List.nodup_cons.mp hnd).2
              (fun o ho => by simpa [List.length_set] using hbound o (by simp [ho])) hk]
          omega

lemma inverse_permutation_length (perm : List ℕ) :
    (inverse_permutation perm).length = perm.length := by
  simp [inverse_permutation, invGo_length]

/-- `inv[perm[i]] = i` whenever `perm` has distinct in-bounds entries. -/
lemma inverse_permutation_getD (perm : List ℕ) (hnd : perm.Nodup)
    (hb : ∀ o ∈ perm, o < perm.length) (i : ℕ) (hi : i < perm.length) :
    (inverse_permutation perm).getD (perm.getD i 0) 0 = i := by
  have := invGo_getD perm (List.replicate perm.length 0) 0 i hnd
    (fun o ho => by simpa using hb o ho) hi
  simpa [inverse_permutation] using this

end InversePerm

/-- C2 counterexample: at n = 2^32 the `n as u32` truncation empties the
identity vector while the loop still starts at i = 2^32 - 1, so the first
swap is out of bounds and the call panics instead of returning a
permutation. -/
theorem C2_counterexample : permutation_fy (2 ^ 32) 1 = none :=
  permutation_fy_none (2 ^ 32) 1 (le_refl _)

/-- C2 (amended): for every n < 2^32 and every seed, `permutation_fy n s`
returns a permutation of `0..n` (empty for n = 0), and `inverse_permutation`
of that permutation satisfies `inv[perm[i]] = i` for every `i < n`. For
n ≥ 2^32 the `n as u32` truncation makes the identity vector shorter than the
loop bound and the call panics. -/
theorem C2_permutation_bijection (n seed : ℕ) (h32 : n < 2 ^ 32) :
    ∃ perm, permutation_fy n seed = some perm ∧ perm.Perm (List.range n) ∧
      ∀ i, i < n → (inverse_permutation perm).getD (perm.getD i 0) 0 = i := by
  have hp := permutation_fy_some n seed h32
  refine ⟨specPermFY n seed, hp, perm_of_some hp, fun i hi => ?_⟩
  have hlen := perm_some_length hp
  exact inverse_permutation_getD _ (perm_some_nodup hp)
    (fun o ho => by rw [hlen]; exact (perm_some_mem hp).mp ho) i (by omega)

theorem C2_permutation_bijection_witness :
    (5 : ℕ) < 2 ^ 32 ∧
      ∃ perm, permutation_fy 5 7 = some perm ∧ perm.Perm (List.range 5) ∧
        ∀ i, i < 5 → (inverse_permutation perm).getD (perm.getD i 0) 0 = i :=
  ⟨by norm_num, C2_permutation_bijection 5 7 (by norm_num)⟩

/-- C7 counterexample: with the multiplier folded back into the state (as the
claim words the update), the permutation for n = 3, seed = 4 would differ from
what the code produces. -/
theorem C7_counterexample :
    permutation_fy 3 4 ≠ some (permutation_fy_claimStateMul 3 4) := by decide

/-- C7 (amended): seed 0 is replaced by the fixed non-zero constant
0x9E3779B97F4A7C15; for every n < 2^32 each draw advances the state by the
three xorshift steps only, the drawn value is the advanced state times
0x2545F4914F6CDD1D mod 2^64 (the multiplication does not feed back into the
state), and Fisher–Yates iterates i from n-1 down to 1 swapping position i
with draw mod (i+1); for n ≥ 2^32 the truncated identity vector makes the
first swap panic. -/
theorem C7_generator_algorithm (n seed : ℕ) :
    (n < 2 ^ 32 → permutation_fy n seed = some (specPermFY n seed)) ∧
      (2 ^ 32 ≤ n → permutation_fy n seed = none) ∧
      permutation_fy n 0 = permutation_fy n 0x9E3779B97F4A7C15 := by
  refine ⟨permutation_fy_some n seed, permutation_fy_none n seed, ?_⟩
  unfold permutation_fy
  simp

theorem C7_generator_algorithm_witness :
    (3 : ℕ) < 2 ^ 32 ∧ permutation_fy 3 4 = some (specPermFY 3 4) :=
  ⟨by norm_num, (C7_generator_algorithm 3 4).1 (by norm_num)⟩

section RoundBounds

lemma round_le_round {a b : ℚ} (h : a ≤ b) : round a ≤ round b := by
  rw [round_eq, round_eq]
  exact Int.floor_le_floor (by linarith)

lemma round_nonneg_of_nonneg {a : ℚ} (h : 0 ≤ a) : 0 ≤ round a := by
  have := round_le_round h
  simpa using this

lemma round_le_65535 {a : ℚ} (h : a ≤ 65535) : round a ≤ 65535 := by
  have := round_le_round h
  have h2 : round ((65535 : ℚ)) = 65535 := by norm_num
  omega

end RoundBounds

section UVs

/-- The source's clamp agrees with the min/max formulation. -/
lemma clamp_eq_min_max (c : ℚ) : clamp c 0 1 = min 1 (max 0 c) := by
  unfold clamp
  rcases lt_trichotomy c 0 with h | h | h
  · rw [if_pos h, max_eq_left h.le, min_eq_right zero_le_one]
  · subst h; norm_num
  · rw [if_neg (not_lt.mpr h.le), max_eq_right h.le]
    by_cases h1 : 1 < c
    · rw [if_pos h1, min_eq_left h1.le]
    · rw [if_neg h1, min_eq_right (not_lt.mp h1)]

/-- Each source UV component computation matches the spec's
clamp-scale-round description. -/
lemma uvComp_eq_spec (c : ℚ) : uvComp c = uvCompSpec c := by
  unfold uvComp uvCompSpec castU32
  rw [clamp_eq_min_max]
  set d := min 1 (max 0 c) with hd
  have hd0 : 0 ≤ d := le_min zero_le_one (le_max_left 0 c)
  have hd1 : d ≤ 1 := min_le_left 1 (max 0 c)
  have hlo : 0 ≤ round (d * 65535) := round_nonneg_of_nonneg (by positivity)
  have hhi : round (d * 65535) ≤ 65535 := round_le_65535 (by nlinarith)
  rw [min_eq_left (by omega), max_eq_right hlo]
  exact Nat.mod_eq_of_lt (by omega)

end UVs

/-- C9: `quantize_uvs` clamps each component to [0,1], scales to [0,65535]
and rounds to nearest; in particular the out-of-range pair (-0.5, 1.5)
quantizes exactly like (0, 1). -/
theorem C9_uv_clamp_scale_round :
    (∀ uvs : List (ℚ × ℚ),
        (quantize_uvs uvs).data =
          uvs.flatMap (fun uv => [uvCompSpec uv.1, uvCompSpec uv.2])) ∧
      quantize_uvs [(-(1 / 2 : ℚ), 3 / 2)] = quantize_uvs [(0, 1)] := by
  constructor
  · intro uvs
    show uvs.flatMap (fun uv => [uvComp uv.1, uvComp uv.2]) = _
    induction uvs with
    | nil => rfl
    | cons uv t ih => simp only [List.flatMap_cons, ih, uvComp_eq_spec]
  · have h1 : clamp (-(1 / 2 : ℚ)) 0 1 = clamp (0 : ℚ) 0 1 := by norm_num [clamp]
    have h2 : clamp ((3 : ℚ) / 2) 0 1 = clamp (1 : ℚ) 0 1 := by norm_num [clamp]
    show QuantizedUVs.mk [uvComp (-(1 / 2 : ℚ)), uvComp ((3 : ℚ) / 2)] =
      QuantizedUVs.mk [uvComp (0 : ℚ), uvComp (1 : ℚ)]
    unfold uvComp
    rw [h1, h2]

section AabbBounds

/-- The AABB fold splits into six independent per-axis folds. -/
lemma aabbFold_decomp :
    ∀ (ps : List (ℚ × ℚ × ℚ)) (st : (EF × EF × EF) × (EF × EF × EF)),
      ps.foldl
        (fun st p =>
          ((updMin st.1.1 p.1, updMin st.1.2.1 p.2.1, updMin st.1.2.2 p.2.2),
           (updMax st.2.1 p.1, updMax st.2.2.1 p.2.1, updMax st.2.2.2 p.2.2))) st =
      (((ps.map Prod.fst).foldl updMin st.1.1,
        (ps.map fun p => p.2.1).foldl updMin st.1.2.1,
        (ps.map fun p => p.2.2).foldl updMin st.1.2.2),
       ((ps.map Prod.fst).foldl updMax st.2.1,
        (ps.map fun p => p.2.1).foldl updMax st.2.2.1,
        (ps.map fun p => p.2.2).foldl updMax st.2.2.2)) := by
  intro ps
  induction ps with
  | nil => intro st; rfl
  | cons p t ih => intro st; simp only [List.foldl_cons, List.map_cons, ih]

/-- A min fold from a finite seed is finite and bounds every element. -/
lemma minFold_fin :
    ∀ (xs : List ℚ) (a : ℚ),
      ∃ m, xs.foldl updMin (.fin a) = .fin m ∧ m ≤ a ∧ ∀ x ∈ xs, m ≤ x := by
  intro xs
  induction xs with
  | nil => intro a; exact ⟨a, rfl, le_refl a, by simp⟩
  | cons x t ih =>
      intro a
      by_cases hxa : x < a
      · obtain ⟨m, heq, hma, hall⟩ := ih x
        refine ⟨m, ?_, hma.trans hxa.le, ?_⟩
        · simpa [updMin, EF.ltB, hxa] using heq
        · intro y hy
          rcases List.mem_cons.mp hy with h | h
          · exact h ▸ hma
          · exact hall y h
      · obtain ⟨m, heq, hma, hall⟩ := ih a
        refine ⟨m, ?_, hma, ?_⟩
        · simpa [updMin, EF.ltB, hxa] using heq
        · intro y hy
          rcases List.mem_cons.mp hy with h | h
          · exact h ▸ (hma.trans (not_lt.mp hxa))
          · exact hall y h

/-- A max fold from a finite seed is finite and bounds every element. -/
lemma maxFold_fin :
    ∀ (xs : List ℚ) (a : ℚ),
      ∃ m, xs.foldl updMax (.fin a) = .fin m ∧ a ≤ m ∧ ∀ x ∈ xs, x ≤ m := by
  intro xs
  induction xs with
  | nil => intro a; exact ⟨a, rfl, le_refl a, by simp⟩
  | cons x t ih =>
      intro a
      by_cases hxa : a < x
      · obtain ⟨m, heq, hma, hall⟩ := ih x
        refine ⟨m, ?_, hxa.le.trans hma, ?_⟩
        · simpa [updMax, EF.ltB, hxa] using heq
        · intro y hy
          rcases List.mem_cons.mp hy with h | h
          · exact h ▸ hma
          · exact hall y h
      · obtain ⟨m, heq, hma, hall⟩ := ih a
        refine ⟨m, ?_, hma, ?_⟩
        · simpa [updMax, EF.ltB, hxa] using heq
        · intro y hy
          rcases List.mem_cons.mp hy with h | h
          · exact h ▸ ((not_lt.mp hxa).trans hma)
          · exact hall y h

lemma minFold_cons (x : ℚ) (t : List ℚ) :
    (x :: t).foldl updMin .pinf = t.foldl updMin (.fin x) := by
  simp [updMin, EF.ltB]

lemma maxFold_cons (x : ℚ) (t : List ℚ) :
    (x :: t).foldl updMax .ninf = t.foldl updMax (.fin x) := by
  simp [updMax, EF.ltB]

lemma EF.sub_fin (a b : ℚ) : EF.sub (.fin a) (.fin b) = .fin (a - b) := rfl

lemma widen_fin_small {a b : ℚ} (h : |b - a| < 1 / 10 ^ 12) :
    widen (.fin a) (.fin b) = .fin (a + 1 / 10 ^ 6) := by
  unfold widen
  have hc : EF.ltB (EF.absE (EF.sub (.fin b) (.fin a))) (.fin (1 / 10 ^ 12)) = true :=
    decide_eq_true h
  rw [hc]
  rfl

lemma widen_fin_large {a b : ℚ} (h : ¬ |b - a| < 1 / 10 ^ 12) :
    widen (.fin a) (.fin b) = .fin b := by
  unfold widen
  have hc : EF.ltB (EF.absE (EF.sub (.fin b) (.fin a))) (.fin (1 / 10 ^ 12)) = false := by
    exact decide_eq_false h
  rw [hc]
  rfl

lemma rngGuard_fin_large {r : ℚ} (h : ¬ |r| < 1 / 10 ^ 12) : rngGuard (.fin r) = .fin r := by
  unfold rngGuard
  have hc : EF.ltB (EF.absE (.fin r)) (.fin (1 / 10 ^ 12)) = false := decide_eq_false h
  rw [hc]
  rfl

/-- One axis of the quantizer: for a nonempty coordinate list, the folded min
is finite, the guarded range is finite with `rng ≥ 1e-12`, and every
coordinate lies in `[mn, mn + rng]`. -/
lemma axis_package (xs : List ℚ) (hne : xs ≠ []) :
    ∃ mn rng : ℚ,
      xs.foldl updMin .pinf = .fin mn ∧
      rngGuard (EF.sub (widen (.fin mn) (xs.foldl updMax .ninf)) (.fin mn)) = .fin rng ∧
      1 / 10 ^ 12 ≤ rng ∧ ∀ x ∈ xs, mn ≤ x ∧ x ≤ mn + rng := by
  obtain ⟨x0, t, rfl⟩ := List.exists_cons_of_ne_nil hne
  obtain ⟨mn, hmn, hmnx0, hmnall⟩ := minFold_fin t x0
  obtain ⟨mx0, hmx, hmxx0, hmxall⟩ := maxFold_fin t x0
  have hminEq : (x0 :: t).foldl updMin .pinf = .fin mn := by rw [minFold_cons]; exact hmn
  have hmaxEq : (x0 :: t).foldl updMax .ninf = .fin mx0 := by rw [maxFold_cons]; exact hmx
  have hmnmx : mn ≤ mx0 := hmnx0.trans hmxx0
  have hc16 : (1 : ℚ) / 10 ^ 12 ≤ 1 / 10 ^ 6 := by norm_num
  have hboundlo : ∀ x ∈ x0 :: t, mn ≤ x := by
    intro y hy
    rcases List.mem_cons.mp hy with h | h
    · exact h ▸ hmnx0
    · exact hmnall y h
  have hboundhi : ∀ x ∈ x0 :: t, x ≤ mx0 := by
    intro y hy
    rcases List.mem_cons.mp hy with h | h
    · exact h ▸ hmxx0
    · exact hmxall y h
  by_cases hdeg : |mx0 - mn| < 1 / 10 ^ 12
  · refine ⟨mn, mn + 1 / 10 ^ 6 - mn, hminEq, ?_, ?_, ?_⟩
    · rw [hmaxEq, widen_fin_small hdeg, EF.sub_fin]
      apply rngGuard_fin_large
      rw [show mn + 1 / 10 ^ 6 - mn = 1 / 10 ^ 6 by ring]
      rw [abs_of_pos (by norm_num)]
      norm_num
    · rw [show mn + 1 / 10 ^ 6 - mn = 1 / 10 ^ 6 by ring]
      exact hc16
    · intro x hx
      refine ⟨hboundlo x hx, ?_⟩
      have h1 : x ≤ mx0 := hboundhi x hx
      have h2 : mx0 - mn ≤ |mx0 - mn| := le_abs_self _
      linarith
  · refine ⟨mn, mx0 - mn, hminEq, ?_, ?_, ?_⟩
    · rw [hmaxEq, widen_fin_large hdeg, EF.sub_fin]
      exact rngGuard_fin_large hdeg
    · have habs : |mx0 - mn| = mx0 - mn := abs_of_nonneg (by linarith)
      rw [← habs]
      exact not_lt.mp hdeg
    · intro x hx
      refine ⟨hboundlo x hx, ?_⟩
      have := hboundhi x hx
      linarith

lemma quantize_positions_offset (ps : List (ℚ × ℚ × ℚ)) :
    (quantize_positions ps).offset = (aabb_min_max ps).1 := rfl

lemma quantize_positions_scale (ps : List (ℚ × ℚ × ℚ)) :
    (quantize_positions ps).scale =
      (EF.divE (rngGuard (EF.sub (aabb_min_max ps).2.1 (aabb_min_max ps).1.1)) (.fin 65535),
       EF.divE (rngGuard (EF.sub (aabb_min_max ps).2.2.1 (aabb_min_max ps).1.2.1)) (.fin 65535),
       EF.divE (rngGuard (EF.sub (aabb_min_max ps).2.2.2 (aabb_min_max ps).1.2.2))
         (.fin 65535)) := rfl

lemma quantize_positions_data (ps : List (ℚ × ℚ × ℚ)) :
    (quantize_positions ps).data = ps.flatMap
      (fun p =>
        [quantCoord (aabb_min_max ps).1.1
           (rngGuard (EF.sub (aabb_min_max ps).2.1 (aabb_min_max ps).1.1)) p.1,
         quantCoord (aabb_min_max ps).1.2.1
           (rngGuard (EF.sub (aabb_min_max ps).2.2.1 (aabb_min_max ps).1.2.1)) p.2.1,
         quantCoord (aabb_min_max ps).1.2.2
           (rngGuard (EF.sub (aabb_min_max ps).2.2.2 (aabb_min_max ps).1.2.2)) p.2.2]) := rfl

lemma aabb_min_max_eq (ps : List (ℚ × ℚ × ℚ)) :
    aabb_min_max ps =
      (((ps.map Prod.fst).foldl updMin .pinf,
        (ps.map fun p => p.2.1).foldl updMin .pinf,
        (ps.map fun p => p.2.2).foldl updMin .pinf),
       (widen ((ps.map Prod.fst).foldl updMin .pinf) ((ps.map Prod.fst).foldl updMax .ninf),
        widen ((ps.map fun p => p.2.1).foldl updMin .pinf)
          ((ps.map fun p => p.2.1).foldl updMax .ninf),
        widen ((ps.map fun p => p.2.2).foldl updMin .pinf)
          ((ps.map fun p => p.2.2).foldl updMax .ninf))) := by
  show ((aabbFold ps).1,
    (widen (aabbFold ps).1.1 (aabbFold ps).2.1, widen (aabbFold ps).1.2.1 (aabbFold ps).2.2.1,
     widen (aabbFold ps).1.2.2 (aabbFold ps).2.2.2)) = _
  rw [show aabbFold ps = _ from aabbFold_decomp ps _]

/-- Per-axis facts about `quantize_positions` on a nonempty input: finite
offset, finite positive scale `rng/65535`, and the data entries are
`quantCoord` at the finite min/range. -/
lemma quantize_positions_axes (ps : List (ℚ × ℚ × ℚ)) (hne : ps ≠ []) :
    ∃ mn1 mn2 mn3 rng1 rng2 rng3 : ℚ,
      (quantize_positions ps).offset = (.fin mn1, .fin mn2, .fin mn3) ∧
      (quantize_positions ps).scale =
        (.fin (rng1 / 65535), .fin (rng2 / 65535), .fin (rng3 / 65535)) ∧
      1 / 10 ^ 12 ≤ rng1 ∧ 1 / 10 ^ 12 ≤ rng2 ∧ 1 / 10 ^ 12 ≤ rng3 ∧
      (quantize_positions ps).data = ps.flatMap
        (fun p =>
          [quantCoord (.fin mn1) (.fin rng1) p.1, quantCoord (.fin mn2) (.fin rng2) p.2.1,
           quantCoord (.fin mn3) (.fin rng3) p.2.2]) ∧
      (∀ p ∈ ps, mn1 ≤ p.1 ∧ p.1 ≤ mn1 + rng1) ∧
      (∀ p ∈ ps, mn2 ≤ p.2.1 ∧ p.2.1 ≤ mn2 + rng2) ∧
      (∀ p ∈ ps, mn3 ≤ p.2.2 ∧ p.2.2 ≤ mn3 + rng3) := by
  have hne1 : ps.map Prod.fst ≠ [] := by simpa using hne
  have hne2 : (ps.map fun p => p.2.1) ≠ [] := by simpa using hne
  have hne3 : (ps.map fun p => p.2.2) ≠ [] := by simpa using hne
  obtain ⟨mn1, rng1, hm1, hr1, hp1, hb1⟩ := axis_package _ hne1
  obtain ⟨mn2, rng2, hm2, hr2, hp2, hb2⟩ := axis_package _ hne2
  obtain ⟨mn3, rng3, hm3, hr3, hp3, hb3⟩ := axis_package _ hne3
  refine ⟨mn1, mn2, mn3, rng1, rng2, rng3, ?_, ?_, hp1, hp2, hp3, ?_, ?_, ?_, ?_⟩
  · simp only [quantize_positions_offset, aabb_min_max_eq, hm1, hm2, hm3]
  · simp only [quantize_positions_scale, aabb_min_max_eq, hm1, hm2, hm3, hr1, hr2, hr3]
    rfl
  · simp only [quantize_positions_data, aabb_min_max_eq, hm1, hm2, hm3, hr1, hr2, hr3]
  · intro p hp
    exact hb1 p.1 (List.mem_map_of_mem Prod.fst hp)
  · intro p hp
    exact hb2 p.2.1 (List.mem_map_of_mem _ hp)
  · intro p hp
    exact hb3 p.2.2 (List.mem_map_of_mem _ hp)

end AabbBounds

/-- C6 counterexample: for the empty input the AABB min/max stay at the IEEE
infinities, the range stays `-inf`, and the resulting scale is `-inf`, which
is not positive — the claim fails for N = 0. -/
theorem C6_counterexample :
    (quantize_positions []).scale.1 = EF.ninf ∧
      EF.ltB (EF.fin 0) (quantize_positions []).scale.1 = false := by
  constructor <;> rfl

/-- C6 (amended): for every NONEMPTY input array, including arrays whose
bounding box has zero extent on some axis, all three scale components are
strictly positive (in the source's IEEE comparison). -/
theorem C6_scale_positive (ps : List (ℚ × ℚ × ℚ)) (hne : ps ≠ []) :
    EF.ltB (EF.fin 0) (quantize_positions ps).scale.1 = true ∧
      EF.ltB (EF.fin 0) (quantize_positions ps).scale.2.1 = true ∧
      EF.ltB (EF.fin 0) (quantize_positions ps).scale.2.2 = true := by
  obtain ⟨mn1, mn2, mn3, rng1, rng2, rng3, _hoff, hscale, hp1, hp2, hp3, _⟩ :=
    quantize_positions_axes ps hne
  rw [hscale]
  refine ⟨?_, ?_, ?_⟩ <;>
    simp only [EF.ltB, decide_eq_true_eq] <;> positivity

theorem C6_scale_positive_witness :
    ([((3 : ℚ), 3, 3)] : List (ℚ × ℚ × ℚ)) ≠ [] ∧
      EF.ltB (EF.fin 0) (quantize_positions [((3 : ℚ), 3, 3)]).scale.1 = true :=
  ⟨by decide, (C6_scale_positive [((3 : ℚ), 3, 3)] (by decide)).1⟩

section PackLemmas

lemma vertexRecord_length (qpos : QuantizedPositions) (qnor : QuantizedNormalsOct)
    (quv : QuantizedUVs) (old : ℕ) : (vertexRecord qpos qnor quv old).length = 14 := rfl

lemma flatMap_const_length (c : ℕ) (f : ℕ → List ℕ) (hf : ∀ i, (f i).length = c) :
    ∀ (n s : ℕ), ((List.range' s n).flatMap f).length = n * c := by
  intro n
  induction n with
  | zero => intro s; simp
  | succ m ih =>
      intro s
      rw [List.range'_succ, List.flatMap_cons, List.length_append, hf, ih]
      ring

lemma flatMap_chunk_extract (c : ℕ) (f : ℕ → List ℕ) (hf : ∀ i, (f i).length = c) :
    ∀ (n s j : ℕ), j < n →
      (((List.range' s n).flatMap f).drop (c * j)).take c = f (s + j) := by
  intro n
  induction n with
  | zero => intro s j hj; omega
  | succ m ih =>
      intro s j hj
      rw [List.range'_succ, List.flatMap_cons]
      cases j with
      | zero =>
          rw [Nat.mul_zero, List.drop_zero, Nat.add_zero]
          have h0 := @List.take_append ℕ (f s) ((List.range' (s + 1) m).flatMap f) 0
          rw [hf] at h0
          simpa using h0
      | succ k =>
          have hlen : c * (k + 1) = (f s).length + c * k := by rw [hf]; ring
          rw [hlen, List.drop_append, ih (s + 1) k (by omega)]
          congr 1
          omega

lemma flatMap_range_length (c : ℕ) (f : ℕ → List ℕ) (hf : ∀ i, (f i).length = c) (n : ℕ) :
    ((List.range n).flatMap f).length = n * c := by
  rw [List.range_eq_range', flatMap_const_length c f hf n 0]

lemma flatMap_range_chunk (c : ℕ) (f : ℕ → List ℕ) (hf : ∀ i, (f i).length = c)
    (n j : ℕ) (hj : j < n) :
    (((List.range n).flatMap f).drop (c * j)).take c = f j := by
  rw [List.range_eq_range', flatMap_chunk_extract c f hf n 0 j hj, Nat.zero_add]

/-- What a successful `pack_interleave_permute` call implies: the two length
preconditions held, and the fields of the result. -/
lemma pack_some_elim {qpos : QuantizedPositions} {qnor : QuantizedNormalsOct}
    {quv : QuantizedUVs} {indices : Option (List ℕ)} {seed : ℕ} {pm : PackedMesh}
    (h : pack_interleave_permute qpos qnor quv indices seed = some pm) :
    qnor.data.length = qpos.data.length / 3 * 2 ∧
    quv.data.length = qpos.data.length / 3 * 2 ∧
    ∃ perm, permutation_fy (qpos.data.length / 3) seed = some perm ∧
      pm.vertex_count = qpos.data.length / 3 ∧
      pm.interleaved = (List.range (qpos.data.length / 3)).flatMap
        (fun new => vertexRecord qpos qnor quv (perm.getD new 0)) ∧
      (indices = none → pm.indices = List.range (qpos.data.length / 3)) ∧
      ∀ l, indices = some l →
        remapIndices (inverse_permutation perm) l = some pm.indices := by
  simp only [pack_interleave_permute] at h
  by_cases h1 : qnor.data.length = qpos.data.length / 3 * 2
  · rw [if_pos h1] at h
    by_cases h2 : quv.data.length = qpos.data.length / 3 * 2
    · rw [if_pos h2] at h
      cases hperm : permutation_fy (qpos.data.length / 3) seed with
      | none =>
          rw [hperm] at h
          cases h
      | some perm =>
          rw [hperm] at h
          cases indices with
          | none =>
              have hpm : _ = pm := Option.some.inj h
              refine ⟨h1, h2, perm, rfl, ?_, ?_, fun _ => ?_, fun l hl => by cases hl⟩
              · rw [← hpm]
              · rw [← hpm]
              · rw [← hpm]
          | some l =>
              rcases Option.map_eq_some'.mp h with ⟨out, hro, hpm⟩
              refine ⟨h1, h2, perm, rfl, ?_, ?_, ?_, ?_⟩
              · rw [← hpm]
              · rw [← hpm]
              · intro hn
                cases hn
              · intro l' hl'
                injection hl' with hll
                subst hll
                rw [← hpm]
                exact hro
    · rw [if_neg h2] at h
      cases h
  · rw [if_neg h1] at h
    cases h

lemma remapIndices_sound :
    ∀ (l out inv : List ℕ), remapIndices inv l = some out →
      out.length = l.length ∧ ∀ k, k < l.length → out.getD k 0 = inv.getD (l.getD k 0) 0 := by
  intro l
  induction l with
  | nil =>
      intro out inv h
      have : ([] : List ℕ) = out := Option.some.inj h
      subst this
      exact ⟨rfl, fun k hk => absurd hk (by simp)⟩
  | cons i rest ih =>
      intro out inv h
      unfold remapIndices at h
      cases hg : inv.get? i with
      | none => rw [hg] at h; cases h
      | some v =>
          rw [hg] at h
          rcases Option.map_eq_some'.mp h with ⟨o2, ho2, hout⟩
          obtain ⟨hlen, hall⟩ := ih o2 inv ho2
          subst hout
          constructor
          · simp [hlen]
          · intro k hk
            cases k with
            | zero =>
                rw [List.getD_cons_zero, List.getD_cons_zero, List.getD_eq_getElem?_getD,
                  ← List.get?_eq_getElem?, hg]
                rfl
            | succ m =>
                rw [List.getD_cons_succ, List.getD_cons_succ]
                exact hall m (by simpa using Nat.lt_of_succ_lt_succ hk)

lemma remapIndices_isSome :
    ∀ (l inv : List ℕ), (∀ i ∈ l, i < inv.length) →
      ∃ out, remapIndices inv l = some out := by
  intro l
  induction l with
  | nil => intro inv _; exact ⟨[], rfl⟩
  | cons i rest ih =>
      intro inv hb
      obtain ⟨o2, ho2⟩ := ih inv (fun x hx => hb x (by simp [hx]))
      have hi : i < inv.length := hb i (by simp)
      refine ⟨inv.getD i 0 :: o2, ?_⟩
      unfold remapIndices
      rw [show inv.get? i = some (inv.getD i 0) from ?_, ho2]
      · rfl
      · rw [List.get?_eq_getElem?, List.getD_eq_getElem?_getD,
          List.getElem?_eq_getElem hi]
        rfl

lemma remapIndices_oob :
    ∀ (l inv : List ℕ) (i : ℕ), i ∈ l → inv.length ≤ i → remapIndices inv l = none := by
  intro l
  induction l with
  | nil => intro inv i hi; cases hi
  | cons j rest ih =>
      intro inv i hi hlen
      unfold remapIndices
      rcases List.mem_cons.mp hi with h | h
      · subst h
        rw [show inv.get? i = none from ?_]
        rw [List.get?_eq_getElem?]
        exact List.getElem?_eq_none hlen
      · cases hg : inv.get? j with
        | none => rfl
        | some v => rw [ih inv i h hlen]; rfl

/-- Entries of a returned permutation are below `n`. -/
lemma perm_some_getD_lt {n seed : ℕ} {perm : List ℕ}
    (h : permutation_fy n seed = some perm) (j : ℕ) (hj : j < n) : perm.getD j 0 < n := by
  have hlen : j < perm.length := by rw [perm_some_length h]; omega
  rw [List.getD_eq_getElem _ _ hlen]
  exact (perm_some_mem h).mp (List.getElem_mem hlen)

/-- The inverse lookup of any `m < n` is in range and is a right inverse. -/
lemma perm_inv_getD {n seed : ℕ} {perm : List ℕ}
    (h : permutation_fy n seed = some perm) (m : ℕ) (hm : m < n) :
    (inverse_permutation perm).getD m 0 < n ∧
      perm.getD ((inverse_permutation perm).getD m 0) 0 = m := by
  have hlen := perm_some_length h
  have hmem : m ∈ perm := (perm_some_mem h).mpr hm
  obtain ⟨t, ht⟩ := List.mem_iff_get.mp hmem
  have hti : t.1 < perm.length := t.2
  have hgetD : perm.getD t.1 0 = m := by
    rw [List.getD_eq_getElem _ _ hti]
    rw [← List.get_eq_getElem]
    exact ht
  have hinv := inverse_permutation_getD perm (perm_some_nodup h)
    (fun o ho => by rw [hlen]; exact (perm_some_mem h).mp ho) t.1 hti
  rw [hgetD] at hinv
  rw [hinv]
  exact ⟨by omega, hgetD⟩

end PackLemmas

/-- C4: on success the interleaved buffer has exactly `vertex_count * 14`
bytes, and the 14 bytes at offset `14*j` are the little-endian `i16` position
lanes, then `u16` normal lanes, then `u16` UV lanes of vertex `perm[j]`, in
that fixed order with no padding. -/
theorem C4_interleaved_layout (qpos : QuantizedPositions) (qnor : QuantizedNormalsOct)
    (quv : QuantizedUVs) (indices : Option (List ℕ)) (seed : ℕ) (pm : PackedMesh)
    (h : pack_interleave_permute qpos qnor quv indices seed = some pm) :
    pm.interleaved.length = pm.vertex_count * 14 ∧
    ∀ j, j < pm.vertex_count →
      (pm.interleaved.drop (14 * j)).take 14 =
        i16le (qpos.data.getD (((permutation_fy pm.vertex_count seed).getD []).getD j 0 * 3) 0) ++
        i16le (qpos.data.getD
          (((permutation_fy pm.vertex_count seed).getD []).getD j 0 * 3 + 1) 0) ++
        i16le (qpos.data.getD
          (((permutation_fy pm.vertex_count seed).getD []).getD j 0 * 3 + 2) 0) ++
        u16le (qnor.data.getD (((permutation_fy pm.vertex_count seed).getD []).getD j 0 * 2) 0) ++
        u16le (qnor.data.getD
          (((permutation_fy pm.vertex_count seed).getD []).getD j 0 * 2 + 1) 0) ++
        u16le (quv.data.getD (((permutation_fy pm.vertex_count seed).getD []).getD j 0 * 2) 0) ++
        u16le (quv.data.getD
          (((permutation_fy pm.vertex_count seed).getD []).getD j 0 * 2 + 1) 0) := by
  obtain ⟨_, _, perm, hperm, hvc, hint, _, _⟩ := pack_some_elim h
  rw [hvc, hint, hperm]
  simp only [Option.getD_some]
  constructor
  · exact flatMap_range_length 14 _ (fun i => vertexRecord_length qpos qnor quv _) _
  · intro j hj
    rw [flatMap_range_chunk 14 _ (fun i => vertexRecord_length qpos qnor quv _) _ j hj]
    rfl

theorem C4_interleaved_layout_witness :
    pack_interleave_permute
        ⟨[5, -3, 7], (.fin 0, .fin 0, .fin 0), (.fin 0, .fin 0, .fin 0)⟩
        ⟨[9, 1]⟩ ⟨[2, 4]⟩ none 1 =
      some ⟨[5, 0, 253, 255, 7, 0, 9, 0, 1, 0, 2, 0, 4, 0], 1, [0],
        (.fin 0, .fin 0, .fin 0), (.fin 0, .fin 0, .fin 0), 1⟩ ∧
    ([5, 0, 253, 255, 7, 0, 9, 0, 1, 0, 2, 0, 4, 0] : List ℕ).length = 1 * 14 :=
  ⟨by decide,
    (C4_interleaved_layout
      ⟨[5, -3, 7], (.fin 0, .fin 0, .fin 0), (.fin 0, .fin 0, .fin 0)⟩
      ⟨[9, 1]⟩ ⟨[2, 4]⟩ none 1
      ⟨[5, 0, 253, 255, 7, 0, 9, 0, 1, 0, 2, 0, 4, 0], 1, [0],
        (.fin 0, .fin 0, .fin 0), (.fin 0, .fin 0, .fin 0), 1⟩ (by decide)).1⟩

/-- C1: when every supplied index is below `vertex_count` and the pack call
succeeds, the remapped index buffer satisfies `indices[k] = inv[I[k]]`, and
the 14-byte interleaved record at slot `indices[k]` is exactly the
little-endian encoding of the quantized lanes of the original vertex `I[k]`. -/
theorem C1_index_remap_consistency (qpos : QuantizedPositions) (qnor : QuantizedNormalsOct)
    (quv : QuantizedUVs) (I : List ℕ) (seed : ℕ) (pm : PackedMesh)
    (hI : ∀ i ∈ I, i < qpos.data.length / 3)
    (h : pack_interleave_permute qpos qnor quv (some I) seed = some pm) :
    ∀ k, k < I.length →
      pm.indices.getD k 0 =
        (inverse_permutation ((permutation_fy (qpos.data.length / 3) seed).getD [])).getD
          (I.getD k 0) 0 ∧
      (pm.interleaved.drop (14 * pm.indices.getD k 0)).take 14 =
        i16le (qpos.data.getD (I.getD k 0 * 3) 0) ++
        i16le (qpos.data.getD (I.getD k 0 * 3 + 1) 0) ++
        i16le (qpos.data.getD (I.getD k 0 * 3 + 2) 0) ++
        u16le (qnor.data.getD (I.getD k 0 * 2) 0) ++
        u16le (qnor.data.getD (I.getD k 0 * 2 + 1) 0) ++
        u16le (quv.data.getD (I.getD k 0 * 2) 0) ++
        u16le (quv.data.getD (I.getD k 0 * 2 + 1) 0) := by
  obtain ⟨_, _, perm, hsome, _hvc, hint, _, hrem⟩ := pack_some_elim h
  obtain ⟨_hlen, hall⟩ := remapIndices_sound I pm.indices _ (hrem I rfl)
  rw [hsome]
  simp only [Option.getD_some]
  intro k hk
  have hIk : I.getD k 0 < qpos.data.length / 3 := by
    apply hI
    rw [List.getD_eq_getElem _ _ hk]
    exact List.getElem_mem hk
  obtain ⟨hjlt, hperm⟩ := perm_inv_getD hsome (I.getD k 0) hIk
  refine ⟨hall k hk, ?_⟩
  rw [hall k hk, hint,
    flatMap_range_chunk 14 _ (fun i => vertexRecord_length qpos qnor quv _) _ _ hjlt, hperm]
  rfl

theorem C1_index_remap_consistency_witness :
    (0 : ℕ) < ([2, 0, 1] : List ℕ).length ∧
      (⟨[4, 0, 5, 0, 6, 0, 12, 0, 13, 0, 22, 0, 23, 0, 1, 0, 2, 0, 3, 0, 10, 0, 11, 0,
          20, 0, 21, 0, 7, 0, 8, 0, 9, 0, 14, 0, 15, 0, 24, 0, 25, 0], 3, [2, 1, 0],
        (.fin 0, .fin 0, .fin 0), (.fin 0, .fin 0, .fin 0), 5⟩ : PackedMesh).indices.getD 0 0 =
        (inverse_permutation
          ((permutation_fy (([1, 2, 3, 4, 5, 6, 7, 8, 9] : List ℤ).length / 3) 5).getD [])).getD
          (([2, 0, 1] : List ℕ).getD 0 0) 0 :=
  ⟨by decide,
    (C1_index_remap_consistency
      ⟨[1, 2, 3, 4, 5, 6, 7, 8, 9], (.fin 0, .fin 0, .fin 0), (.fin 0, .fin 0, .fin 0)⟩
      ⟨[10, 11, 12, 13, 14, 15]⟩ ⟨[20, 21, 22, 23, 24, 25]⟩ [2, 0, 1] 5
      ⟨[4, 0, 5, 0, 6, 0, 12, 0, 13, 0, 22, 0, 23, 0, 1, 0, 2, 0, 3, 0, 10, 0, 11, 0,
          20, 0, 21, 0, 7, 0, 8, 0, 9, 0, 14, 0, 15, 0, 24, 0, 25, 0], 3, [2, 1, 0],
        (.fin 0, .fin 0, .fin 0), (.fin 0, .fin 0, .fin 0), 5⟩
      (by decide) (by decide) 0 (by decide)).1⟩

/-- `pack_interleave_permute` with both length preconditions satisfied, a
returned permutation, and an explicit index buffer, written as a map over the
fallible remap loop. -/
lemma pack_some_indices_eq (qpos : QuantizedPositions) (qnor : QuantizedNormalsOct)
    (quv : QuantizedUVs) (l : List ℕ) (seed : ℕ) {perm : List ℕ}
    (hn : qnor.data.length = qpos.data.length / 3 * 2)
    (hu : quv.data.length = qpos.data.length / 3 * 2)
    (hperm : permutation_fy (qpos.data.length / 3) seed = some perm) :
    pack_interleave_permute qpos qnor quv (some l) seed =
      (remapIndices (inverse_permutation perm) l).map
        (fun out =>
          { interleaved := (List.range (qpos.data.length / 3)).flatMap
              (fun new => vertexRecord qpos qnor quv (perm.getD new 0)),
            vertex_count := qpos.data.length / 3,
            indices := out, pos_scale := qpos.scale, pos_offset := qpos.offset,
            perm_seed := seed }) := by
  simp only [pack_interleave_permute]
  rw [if_pos hn, if_pos hu, hperm]

/-- With matching lane lengths but `vertex_count ≥ 2^32`, the call aborts in
`permutation_fy` before any output is produced. -/
lemma pack_none_of_vc_oob (pos : List ℤ) (sc off : EF × EF × EF) (nor uv : List ℕ)
    (indices : Option (List ℕ)) (seed : ℕ)
    (hn : nor.length = pos.length / 3 * 2)
    (hu : uv.length = pos.length / 3 * 2)
    (hvc : 2 ^ 32 ≤ pos.length / 3) :
    pack_interleave_permute ⟨pos, sc, off⟩ ⟨nor⟩ ⟨uv⟩ indices seed = none := by
  simp only [pack_interleave_permute]
  rw [if_pos hn, if_pos hu, permutation_fy_none _ seed hvc]

/-- C10 counterexample: lane lengths match (2^33 = 2×vertex_count) and every
supplied index is below vertex_count (the index buffer is empty), yet the
call aborts: at vertex_count = 2^32 the `n as u32` truncation in
`permutation_fy` empties the identity vector and the first swap panics before
any remapping happens, refuting "every internal array access is in bounds and
the call returns". -/
theorem C10_truncation_counterexample :
    (∀ i ∈ ([] : List ℕ), i < (List.replicate (3 * 2 ^ 32) (0 : ℤ)).length / 3) ∧
      pack_interleave_permute
        ⟨List.replicate (3 * 2 ^ 32) (0 : ℤ), (.fin 0, .fin 0, .fin 0),
          (.fin 0, .fin 0, .fin 0)⟩
        ⟨List.replicate (2 ^ 33) 0⟩ ⟨List.replicate (2 ^ 33) 0⟩ (some []) 1 = none := by
  constructor
  · intro i hi
    cases hi
  · have hn2 : (List.replicate (2 ^ 33) (0 : ℕ)).length =
        (List.replicate (3 * 2 ^ 32) (0 : ℤ)).length / 3 * 2 := by
      rw [List.length_replicate, List.length_replicate]
      norm_num
    have hvc2 : 2 ^ 32 ≤ (List.replicate (3 * 2 ^ 32) (0 : ℤ)).length / 3 := by
      rw [List.length_replicate]
      norm_num
    exact pack_none_of_vc_oob _ _ _ _ _ _ 1 hn2 hn2 hvc2

/-- C10 (amended): with matching lane lengths and `vertex_count < 2^32`, an
index buffer whose entries are all below `vertex_count` packs successfully
(all internal accesses in bounds), while any entry at or above `vertex_count`
makes the `inv[i]` lookup go out of bounds and the call aborts with no
output; for `vertex_count ≥ 2^32` the call aborts regardless (see the
counterexample). -/
theorem C10_index_bounds (qpos : QuantizedPositions) (qnor : QuantizedNormalsOct)
    (quv : QuantizedUVs) (l : List ℕ) (seed : ℕ)
    (hn : qnor.data.length = qpos.data.length / 3 * 2)
    (hu : quv.data.length = qpos.data.length / 3 * 2)
    (hvc : qpos.data.length / 3 < 2 ^ 32) :
    ((∀ i ∈ l, i < qpos.data.length / 3) →
      (pack_interleave_permute qpos qnor quv (some l) seed).isSome = true) ∧
    ((∃ i ∈ l, qpos.data.length / 3 ≤ i) →
      pack_interleave_permute qpos qnor quv (some l) seed = none) := by
  have hperm := permutation_fy_some (qpos.data.length / 3) seed hvc
  have hinvlen :
      (inverse_permutation (specPermFY (qpos.data.length / 3) seed)).length =
        qpos.data.length / 3 := by
    rw [inverse_permutation_length, perm_some_length hperm]
  rw [pack_some_indices_eq qpos qnor quv l seed hn hu hperm]
  constructor
  · intro hb
    obtain ⟨out, ho⟩ := remapIndices_isSome l _ (fun i hi => by rw [hinvlen]; exact hb i hi)
    rw [ho]
    rfl
  · rintro ⟨i, hi, hge⟩
    rw [remapIndices_oob l _ i hi (by rw [hinvlen]; exact hge)]
    rfl

theorem C10_index_bounds_witness :
    (pack_interleave_permute ⟨[0, 0, 0], (.fin 0, .fin 0, .fin 0), (.fin 0, .fin 0, .fin 0)⟩
      ⟨[0, 0]⟩ ⟨[0, 0]⟩ (some [0]) 7).isSome = true :=
  (C10_index_bounds ⟨[0, 0, 0], (.fin 0, .fin 0, .fin 0), (.fin 0, .fin 0, .fin 0)⟩
    ⟨[0, 0]⟩ ⟨[0, 0]⟩ [0] 7 (by decide) (by decide) (by norm_num)).1 (by decide)

/-- C5 counterexample: take one vertex (vc = 1) with a quantized-normal lane
of length 2. The claim's condition "normal lane length does not match
3×vertex_count" holds (2 ≠ 3), so the claim predicts a precondition failure,
but the code's assert compares against 2×vertex_count and the call succeeds. -/
theorem C5_counterexample :
    (pack_interleave_permute ⟨[0, 0, 0], (.fin 0, .fin 0, .fin 0), (.fin 0, .fin 0, .fin 0)⟩
        ⟨[0, 0]⟩ ⟨[0, 0]⟩ none 1).isSome = true ∧
      (([0, 0] : List ℕ).length ≠ 3 * (([0, 0, 0] : List ℤ).length / 3)) := by
  constructor
  · decide
  · decide

/-- C5 (amended): with every supplied index below `vertex_count`, the call
fails exactly when the normal lane length differs from 2×vertex_count, the
UV lane length differs from 2×vertex_count (vertex_count = position lane
length / 3), or vertex_count ≥ 2^32 (where the `n as u32` truncation inside
`permutation_fy` makes the first swap panic); the `none` result models the
abort with no output. -/
theorem C5_length_preconditions (qpos : QuantizedPositions) (qnor : QuantizedNormalsOct)
    (quv : QuantizedUVs) (indices : Option (List ℕ)) (seed : ℕ)
    (hidx : ∀ l, indices = some l → ∀ i ∈ l, i < qpos.data.length / 3) :
    pack_interleave_permute qpos qnor quv indices seed = none ↔
      (qnor.data.length ≠ qpos.data.length / 3 * 2 ∨
        quv.data.length ≠ qpos.data.length / 3 * 2 ∨
        2 ^ 32 ≤ qpos.data.length / 3) := by
  by_cases h1 : qnor.data.length = qpos.data.length / 3 * 2
  · by_cases h2 : quv.data.length = qpos.data.length / 3 * 2
    · by_cases hvc : qpos.data.length / 3 < 2 ^ 32
      · have hperm := permutation_fy_some (qpos.data.length / 3) seed hvc
        constructor
        · intro hnone
          exfalso
          cases indices with
          | none =>
              simp only [pack_interleave_permute] at hnone
              rw [if_pos h1, if_pos h2, hperm] at hnone
              cases hnone
          | some l =>
              rw [pack_some_indices_eq qpos qnor quv l seed h1 h2 hperm] at hnone
              obtain ⟨out, ho⟩ := remapIndices_isSome l _ (fun i hi => by
                rw [inverse_permutation_length, perm_some_length hperm]
                exact hidx l rfl i hi)
              rw [ho] at hnone
              cases hnone
        · rintro (h | h | h)
          · exact absurd h1 h
          · exact absurd h2 h
          · omega
      · refine ⟨fun _ => Or.inr (Or.inr (by omega)), fun _ => ?_⟩
        simp only [pack_interleave_permute]
        rw [if_pos h1, if_pos h2, permutation_fy_none _ seed (by omega)]
    · refine ⟨fun _ => Or.inr (Or.inl h2), fun _ => ?_⟩
      simp only [pack_interleave_permute]
      rw [if_pos h1, if_neg h2]
  · refine ⟨fun _ => Or.inl h1, fun _ => ?_⟩
    simp only [pack_interleave_permute]
    rw [if_neg h1]

theorem C5_length_preconditions_witness :
    pack_interleave_permute ⟨[0, 0, 0], (.fin 0, .fin 0, .fin 0), (.fin 0, .fin 0, .fin 0)⟩
        ⟨[0]⟩ ⟨[0, 0]⟩ none 3 = none ↔
      (([0] : List ℕ).length ≠ ([0, 0, 0] : List ℤ).length / 3 * 2 ∨
        ([0, 0] : List ℕ).length ≠ ([0, 0, 0] : List ℤ).length / 3 * 2 ∨
        2 ^ 32 ≤ ([0, 0, 0] : List ℤ).length / 3) :=
  C5_length_preconditions ⟨[0, 0, 0], (.fin 0, .fin 0, .fin 0), (.fin 0, .fin 0, .fin 0)⟩
    ⟨[0]⟩ ⟨[0, 0]⟩ none 3 (fun l h => by cases h)

section RoundTrip

/-- On the in-range path, the stored lane is `round(normalized) - 32768`:
the clamp, the `i64`, the `as i32` wrap and the `i32` clamp are all no-ops. -/
lemma quantCoord_eq (mn rng x : ℚ) (h0 : 0 < rng) (h1 : mn ≤ x) (h2 : x ≤ mn + rng) :
    quantCoord (.fin mn) (.fin rng) x = round ((x - mn) / rng * 65535) - 32768 := by
  unfold quantCoord
  have hT : EF.mulE (EF.divE (EF.sub (.fin x) (.fin mn)) (.fin rng)) (.fin 65535) =
      .fin ((x - mn) / rng * 65535) := rfl
  rw [hT]
  set t := (x - mn) / rng * 65535 with ht
  have htlo : 0 ≤ t := by
    rw [ht]
    exact mul_nonneg (div_nonneg (by linarith) h0.le) (by norm_num)
  have hthi : t ≤ 65535 := by
    have hle : (x - mn) / rng ≤ 1 := (div_le_one h0).mpr (by linarith)
    rw [ht]
    calc (x - mn) / rng * 65535 ≤ 1 * 65535 :=
          mul_le_mul_of_nonneg_right hle (by norm_num)
      _ = 65535 := by norm_num
  have hcl : EF.clampE (.fin t) (.fin 0) (.fin 65535) = .fin t := by
    unfold EF.clampE
    rw [show EF.ltB (.fin t) (.fin 0) = false from decide_eq_false (not_lt.mpr htlo),
      show EF.ltB (.fin 65535) (.fin t) = false from decide_eq_false (not_lt.mpr hthi)]
    rfl
  show clamp (wrap32 (EF.roundI64 (EF.clampE (.fin t) (.fin 0) (.fin 65535)) - 32768))
      (-32768 : ℤ) 32767 = round t - 32768
  rw [hcl]
  show clamp (wrap32 (round t - 32768)) (-32768 : ℤ) 32767 = round t - 32768
  have hrlo : 0 ≤ round t := round_nonneg_of_nonneg htlo
  have hrhi : round t ≤ 65535 := round_le_65535 hthi
  have hw : wrap32 (round t - 32768) = round t - 32768 := by
    unfold wrap32
    rw [Int.emod_eq_of_lt (by omega) (by omega)]
    ring
  rw [hw]
  unfold clamp
  rw [if_neg (by omega : ¬(round t - 32768 < -32768)),
    if_neg (by omega : ¬((32767 : ℤ) < round t - 32768))]

lemma deqCoord_eq (s off : ℚ) (q : ℤ) :
    deqCoord (.fin s) (.fin off) q = .fin (((q : ℚ) + 32768) * s + off) := rfl

/-- The reconstructed coordinate is within half a quantization step of the
input. -/
lemma coord_roundtrip (mn rng x : ℚ) (h0 : 0 < rng) (h1 : mn ≤ x) (h2 : x ≤ mn + rng) :
    ∃ v : ℚ,
      deqCoord (.fin (rng / 65535)) (.fin mn) (quantCoord (.fin mn) (.fin rng) x) = .fin v ∧
        |v - x| ≤ rng / 65535 / 2 := by
  rw [quantCoord_eq mn rng x h0 h1 h2, deqCoord_eq]
  set t := (x - mn) / rng * 65535 with ht
  refine ⟨(((round t - 32768 : ℤ) : ℚ) + 32768) * (rng / 65535) + mn, rfl, ?_⟩
  have htx : t * (rng / 65535) = x - mn := by
    rw [ht]
    field_simp
  have hveq : (((round t - 32768 : ℤ) : ℚ) + 32768) * (rng / 65535) + mn - x =
      ((round t : ℚ) - t) * (rng / 65535) := by
    have hexp : ((round t : ℚ) - t) * (rng / 65535) =
        (round t : ℚ) * (rng / 65535) - t * (rng / 65535) := by ring
    rw [hexp, htx]
    push_cast
    ring
  rw [hveq, abs_mul, abs_of_pos (show (0 : ℚ) < rng / 65535 by positivity)]
  have hround : |(round t : ℚ) - t| ≤ 1 / 2 := by
    rw [abs_sub_comm]
    exact abs_sub_round t
  calc |(round t : ℚ) - t| * (rng / 65535) ≤ 1 / 2 * (rng / 65535) :=
        mul_le_mul_of_nonneg_right hround (by positivity)
    _ = rng / 65535 / 2 := by ring

/-- Decoding the flat lane list produced by the per-point quantization loop
recovers one decoded triple per input point. -/
lemma deqChunks_flatMap (sc off : EF × EF × EF) (f1 f2 f3 : ℚ → ℤ) :
    ∀ ps : List (ℚ × ℚ × ℚ),
      deqChunks sc off (ps.flatMap (fun p => [f1 p.1, f2 p.2.1, f3 p.2.2])) =
        ps.map (fun p =>
          (deqCoord sc.1 off.1 (f1 p.1), deqCoord sc.2.1 off.2.1 (f2 p.2.1),
           deqCoord sc.2.2 off.2.2 (f3 p.2.2))) := by
  intro ps
  induction ps with
  | nil => rfl
  | cons p t ih =>
      rw [List.flatMap_cons, List.map_cons]
      show deqChunks sc off (f1 p.1 :: f2 p.2.1 :: f3 p.2.2 :: t.flatMap _) = _
      rw [deqChunks, ih]

end RoundTrip

/-- C3: dequantizing the quantized positions yields one triple per input
vertex, and each reconstructed coordinate is within `0.5 * scale[a] + 1e-6`
of the original (the proof gives the tighter `0.5 * scale[a]`). -/
theorem C3_roundtrip_bound (ps : List (ℚ × ℚ × ℚ)) :
    (dequantize_positions (quantize_positions ps)).length = ps.length ∧
    ∀ i, i < ps.length →
      ∃ s1 s2 s3 v1 v2 v3 : ℚ,
        (quantize_positions ps).scale = (.fin s1, .fin s2, .fin s3) ∧
        (dequantize_positions (quantize_positions ps)).getD i (.fin 0, .fin 0, .fin 0) =
          (.fin v1, .fin v2, .fin v3) ∧
        |v1 - (ps.getD i (0, 0, 0)).1| ≤ s1 / 2 + 1 / 10 ^ 6 ∧
        |v2 - (ps.getD i (0, 0, 0)).2.1| ≤ s2 / 2 + 1 / 10 ^ 6 ∧
        |v3 - (ps.getD i (0, 0, 0)).2.2| ≤ s3 / 2 + 1 / 10 ^ 6 := by
  by_cases hne : ps = []
  · subst hne
    exact ⟨rfl, fun i hi => absurd hi (by simp)⟩
  obtain ⟨mn1, mn2, mn3, rng1, rng2, rng3, hoff, hscale, hp1, hp2, hp3, hdata, hb1, hb2, hb3⟩ :=
    quantize_positions_axes ps hne
  have h01 : (0 : ℚ) < rng1 := lt_of_lt_of_le (by norm_num) hp1
  have h02 : (0 : ℚ) < rng2 := lt_of_lt_of_le (by norm_num) hp2
  have h03 : (0 : ℚ) < rng3 := lt_of_lt_of_le (by norm_num) hp3
  have hd : dequantize_positions (quantize_positions ps) =
      ps.map (fun p =>
        (deqCoord (.fin (rng1 / 65535)) (.fin mn1) (quantCoord (.fin mn1) (.fin rng1) p.1),
         deqCoord (.fin (rng2 / 65535)) (.fin mn2) (quantCoord (.fin mn2) (.fin rng2) p.2.1),
         deqCoord (.fin (rng3 / 65535)) (.fin mn3)
           (quantCoord (.fin mn3) (.fin rng3) p.2.2))) := by
    unfold dequantize_positions
    rw [hdata, hscale, hoff]
    exact deqChunks_flatMap _ _ _ _ _ ps
  constructor
  · rw [hd, List.length_map]
  · intro i hi
    have hmem : ps.getD i (0, 0, 0) ∈ ps := by
      rw [List.getD_eq_getElem _ _ hi]
      exact List.getElem_mem hi
    obtain ⟨hl1, hr1⟩ := hb1 _ hmem
    obtain ⟨hl2, hr2⟩ := hb2 _ hmem
    obtain ⟨hl3, hr3⟩ := hb3 _ hmem
    obtain ⟨v1, hv1, he1⟩ := coord_roundtrip mn1 rng1 _ h01 hl1 hr1
    obtain ⟨v2, hv2, he2⟩ := coord_roundtrip mn2 rng2 _ h02 hl2 hr2
    obtain ⟨v3, hv3, he3⟩ := coord_roundtrip mn3 rng3 _ h03 hl3 hr3
    refine ⟨rng1 / 65535, rng2 / 65535, rng3 / 65535, v1, v2, v3, hscale, ?_, ?_, ?_, ?_⟩
    · rw [hd, List.getD_eq_getElem _ _ (by rw [List.length_map]; exact hi),
        List.getElem_map, show ps[i] = ps.getD i (0, 0, 0) from
          (List.getD_eq_getElem ps (0, 0, 0) hi).symm, hv1, hv2, hv3]
    · exact he1.trans (by norm_num)
    · exact he2.trans (by norm_num)
    · exact he3.trans (by norm_num)

theorem C3_roundtrip_bound_witness :
    (0 : ℕ) < ([((0 : ℚ), 1, 2), (10, 20, 30), (-1, 1 / 2, 100)] : List (ℚ × ℚ × ℚ)).length ∧
      ∃ s1 s2 s3 v1 v2 v3 : ℚ,
        (quantize_positions [((0 : ℚ), 1, 2), (10, 20, 30), (-1, 1 / 2, 100)]).scale =
          (.fin s1, .fin s2, .fin s3) ∧
        (dequantize_positions
            (quantize_positions [((0 : ℚ), 1, 2), (10, 20, 30), (-1, 1 / 2, 100)])).getD 0
            (.fin 0, .fin 0, .fin 0) = (.fin v1, .fin v2, .fin v3) ∧
        |v1 - (([((0 : ℚ), 1, 2), (10, 20, 30), (-1, 1 / 2, 100)] :
            List (ℚ × ℚ × ℚ)).getD 0 (0, 0, 0)).1| ≤ s1 / 2 + 1 / 10 ^ 6 ∧
        |v2 - (([((0 : ℚ), 1, 2), (10, 20, 30), (-1, 1 / 2, 100)] :
            List (ℚ × ℚ × ℚ)).getD 0 (0, 0, 0)).2.1| ≤ s2 / 2 + 1 / 10 ^ 6 ∧
        |v3 - (([((0 : ℚ), 1, 2), (10, 20, 30), (-1, 1 / 2, 100)] :
            List (ℚ × ℚ × ℚ)).getD 0 (0, 0, 0)).2.2| ≤ s3 / 2 + 1 / 10 ^ 6 :=
  ⟨by decide,
    (C3_roundtrip_bound [((0 : ℚ), 1, 2), (10, 20, 30), (-1, 1 / 2, 100)]).2 0 (by decide)⟩

section Normals

lemma octQuant_one : octQuant 1 = 65535 := by
  unfold octQuant
  rw [show ((1 : ℝ) * (1 / 2) + 1 / 2) * 65535 = 65535 by norm_num]
  rw [show clamp ((65535 : ℝ)) 0 65535 = 65535 by
    unfold clamp
    rw [if_neg (by norm_num), if_neg (by norm_num)]]
  rw [show round ((65535 : ℝ)) = 65535 by
    rw [show ((65535 : ℝ)) = ((65535 : ℕ) : ℝ) by norm_num, round_natCast]
    norm_num]
  decide

lemma octProject_fst_zero (Y Z : ℝ) : (octProject (0, Y, Z)).1 = 0 := by
  simp only [octProject]
  split
  · exact zero_div _
  · rfl

lemma octProject_snd_zero (X Z : ℝ) : (octProject (X, 0, Z)).2 = 0 := by
  simp only [octProject]
  split
  · exact zero_div _
  · rfl

lemma rustSignum_zero : rustSignum 0 = 1 := by
  unfold rustSignum
  rw [if_neg (lt_irrefl (0 : ℝ))]

lemma octFold_fst_zero (Z : ℝ) (p : ℝ × ℝ) (hZ : Z < 0) (hp : p.1 = 0) :
    (octFold Z p).1 = 1 := by
  unfold octFold
  rw [if_pos hZ]
  show (1 - |p.1|) * rustSignum p.1 = 1
  rw [hp, rustSignum_zero, abs_zero]
  ring

lemma octFold_snd_zero (Z : ℝ) (p : ℝ × ℝ) (hZ : Z < 0) (hp : p.2 = 0) :
    (octFold Z p).2 = 1 := by
  unfold octFold
  rw [if_pos hZ]
  show (1 - |p.2|) * rustSignum p.2 = 1
  rw [hp, rustSignum_zero, abs_zero]
  ring

end Normals

/-- C8 (amended): the fold uses Rust `signum` semantics, where
`signum(+0.0) = 1` (not 0): for every input normal with `z < 0` whose first
octahedral-projected component is 0 (in particular `x = 0`), the folded
component is `(1 - 0) * 1 = 1`, so the first encoded lane is 65535, not
32768. -/
theorem C8_signum_fold (x y z : ℝ) (hx : x = 0) (hz : z < 0) :
    (encodeNormalOct (x, y, z)).1 = 65535 := by
  subst hx
  have hzz : 0 < z * z := mul_pos_of_neg_of_neg hz hz
  have harg : (0 : ℝ) < (0, y, z).1 * (0, y, z).1 + (0, y, z).2.1 * (0, y, z).2.1 +
      (0, y, z).2.2 * (0, y, z).2.2 := by
    show (0 : ℝ) < 0 * 0 + y * y + z * z
    nlinarith [mul_self_nonneg y]
  have hlen : Real.sqrt ((0, y, z).1 * (0, y, z).1 + (0, y, z).2.1 * (0, y, z).2.1 +
      (0, y, z).2.2 * (0, y, z).2.2) > 0 := Real.sqrt_pos.mpr harg
  have hnorm : octNormalize (0, y, z) =
      (0, y / Real.sqrt (0 * 0 + y * y + z * z), z / Real.sqrt (0 * 0 + y * y + z * z)) := by
    simp only [octNormalize]
    rw [if_pos hlen]
    rw [zero_div]
  set len := Real.sqrt (0 * 0 + y * y + z * z) with hlendef
  have hlen' : 0 < len := hlen
  have hZneg : z / len < 0 := div_neg_of_neg_of_pos hz hlen'
  show octQuant
      (octFold (octNormalize (0, y, z)).2.2 (octProject (octNormalize (0, y, z)))).1 = 65535
  rw [hnorm]
  show octQuant (octFold (z / len) (octProject (0, y / len, z / len))).1 = 65535
  rw [octFold_fst_zero (z / len) _ hZneg (octProject_fst_zero _ _), octQuant_one]

theorem C8_signum_fold_witness :
    ((-2 : ℝ) < 0) ∧ (encodeNormalOct (0, 1, -2)).1 = 65535 :=
  ⟨by norm_num, C8_signum_fold 0 1 (-2) rfl (by norm_num)⟩

/-- Analogue of the fold lemma for the second component. -/
lemma C8_snd_component (x y z : ℝ) (hy : y = 0) (hz : z < 0) :
    (encodeNormalOct (x, y, z)).2 = 65535 := by
  subst hy
  have hzz : 0 < z * z := mul_pos_of_neg_of_neg hz hz
  have harg : (0 : ℝ) < (x, 0, z).1 * (x, 0, z).1 + (x, 0, z).2.1 * (x, 0, z).2.1 +
      (x, 0, z).2.2 * (x, 0, z).2.2 := by
    show (0 : ℝ) < x * x + 0 * 0 + z * z
    nlinarith [mul_self_nonneg x]
  have hlen : Real.sqrt ((x, 0, z).1 * (x, 0, z).1 + (x, 0, z).2.1 * (x, 0, z).2.1 +
      (x, 0, z).2.2 * (x, 0, z).2.2) > 0 := Real.sqrt_pos.mpr harg
  have hnorm : octNormalize (x, 0, z) =
      (x / Real.sqrt (x * x + 0 * 0 + z * z), 0, z / Real.sqrt (x * x + 0 * 0 + z * z)) := by
    simp only [octNormalize]
    rw [if_pos hlen]
    rw [zero_div]
  set len := Real.sqrt (x * x + 0 * 0 + z * z) with hlendef
  have hlen' : 0 < len := hlen
  have hZneg : z / len < 0 := div_neg_of_neg_of_pos hz hlen'
  show octQuant
      (octFold (octNormalize (x, 0, z)).2.2 (octProject (octNormalize (x, 0, z)))).2 = 65535
  rw [hnorm]
  show octQuant (octFold (z / len) (octProject (x / len, 0, z / len))).2 = 65535
  rw [octFold_snd_zero (z / len) _ hZneg (octProject_snd_zero _ _), octQuant_one]

/-- C8 counterexample: the unit normal (0, 0, -1) encodes to (65535, 65535),
not (32768, 32768): Rust's `signum(+0.0)` is 1, not the claimed 0. -/
theorem C8_counterexample :
    encodeNormalOct ((0 : ℝ), 0, -1) = (65535, 65535) ∧
      encodeNormalOct ((0 : ℝ), 0, -1) ≠ (32768, 32768) := by
  have h1 : (encodeNormalOct ((0 : ℝ), 0, -1)).1 = 65535 :=
    C8_signum_fold 0 0 (-1) rfl (by norm_num)
  have h2 : (encodeNormalOct ((0 : ℝ), 0, -1)).2 = 65535 :=
    C8_snd_component 0 0 (-1) rfl (by norm_num)
  have hpair : encodeNormalOct ((0 : ℝ), 0, -1) = (65535, 65535) := by
    rw [show encodeNormalOct ((0 : ℝ), 0, -1) =
      ((encodeNormalOct ((0 : ℝ), 0, -1)).1, (encodeNormalOct ((0 : ℝ), 0, -1)).2) from rfl,
      h1, h2]
  refine ⟨hpair, ?_⟩
  rw [hpair]
  intro hcontra
  have := congrArg Prod.fst hcontra
  simp at this

end Meshguard
